import Mathlib

/-!
Verification of the unused-file scanner `scripts/find_unused.py`.

The script walks a source tree, collects every `.ts` / `.tsx` file that is
not a `.d.ts` declaration file (the File Set, as paths relative to the scan
root), seeds a Reference Set from three hardcoded entry-point basenames,
scans every collected file's text for quoted literals beginning with a dot
(the regex findall over the pattern quote, dot, lazy run, quote), resolves
each literal against the importing file's directory, checks four candidate
paths (two extensions, two index files) for membership in the File Set,
and finally returns the sorted list of files never referenced.

The embedding below models the filesystem tree as a list of files, each a
relative path (a string, components separated by a slash, as produced by
os.path.relpath) together with its textual content; a content of `none`
models a file whose bytes cannot be decoded as UTF-8, which makes the
Python code raise and abort the whole run — the raised UnicodeDecodeError
carries the encoding, the bytes, a byte range and a reason, but not the
file's path, so it is modelled by a bare token.  The scan root is the
script's hardcoded absolute path, modelled literally by its component
list: resolution works on absolute component lists with the textual
normpath (clamped at the filesystem root), so a literal that climbs above
the scan root and re-descends into it — such as `../src/helper` from a
top-level file — resolves back into the root exactly as the program's
does, and candidates are compared through a faithful os.path.relpath.

String primitives (splitting on the separator, suffix test, joining,
lexicographic comparison) are defined here by structural recursion over
the character list of the string, so that every definition evaluates
inside the kernel.
-/

namespace FindUnused

/-- One file of the scanned tree: its path relative to the scan root and
its decoded text content (`none` when the bytes do not decode, in which
case reading the file raises). -/
structure SourceFile where
  path : String
  content : Option String
deriving DecidableEq

/-- The single-quote character. -/
def singleQuote : Char := Char.ofNat 39

/-- The double-quote character. -/
def doubleQuote : Char := Char.ofNat 34

/-- The newline character, which the regex dot does not match. -/
def newlineChar : Char := Char.ofNat 10

/-- A character of the regex class matching either quote. -/
def isQuote (c : Char) : Bool := c = singleQuote || c = doubleQuote

/-- Split a character list at every slash; the final accumulator holds the
current component reversed. -/
def splitSlashAux : List Char → List Char → List String
  | [], acc => [String.mk acc.reverse]
  | c :: cs, acc =>
      if c = '/' then String.mk acc.reverse :: splitSlashAux cs []
      else splitSlashAux cs (c :: acc)

/-- `s.split("/")` of Python: the slash-separated components of a path. -/
def splitSlash (s : String) : List String := splitSlashAux s.data []

/-- Python `str.endswith`: the second string is a suffix of the first. -/
def strEndsWith (s t : String) : Bool := t.data.reverse.isPrefixOf s.data.reverse

/-- Slash-join of path components, as `os.path.relpath` renders an
in-root path. -/
def joinPath : List String → String
  | [] => ""
  | [c] => c
  | c :: d :: cs => c ++ "/" ++ joinPath (d :: cs)

/-- Lexicographic order on character lists by code point, the order Python
`sorted` uses on strings. -/
def lexLe : List Char → List Char → Bool
  | [], _ => true
  | _ :: _, [] => false
  | a :: as, b :: bs =>
      if a.toNat < b.toNat then true
      else if b.toNat < a.toNat then false
      else lexLe as bs

/-- Lexicographic order on strings by code point. -/
def strLe (a b : String) : Bool := lexLe a.data b.data

/-- The lexicographic order as a relation, for sorting. -/
def strLeRel (a b : String) : Prop := strLe a b = true

instance : DecidableRel strLeRel := fun a b => decEq (strLe a b) true

/-- State of the scan for the pattern quote, dot, lazy run, quote:
between matches, just after an opening quote, or inside a literal whose
characters so far are held in reverse. -/
inductive ScanState where
  | outside : ScanState
  | seenQuote : ScanState
  | inLit : List Char → ScanState

/-- One left-to-right pass of `re.findall` for the pattern
quote, dot, lazy run of non-newline characters, quote: a match starts at a
quote immediately followed by a dot, ends at the next quote of either kind
(that quote being consumed), and is abandoned at a newline.  An abandoned
region holds no quote character, so rescanning from one past the opening
quote finds no match before the newline and the scan may continue after
it. -/
def findImportsAux : ScanState → List Char → List String
  | _, [] => []
  | .outside, c :: cs =>
      if isQuote c then findImportsAux .seenQuote cs
      else findImportsAux .outside cs
  | .seenQuote, c :: cs =>
      if c = '.' then findImportsAux (.inLit ['.']) cs
      else if isQuote c then findImportsAux .seenQuote cs
      else findImportsAux .outside cs
  | .inLit buf, c :: cs =>
      if isQuote c then String.mk buf.reverse :: findImportsAux .outside cs
      else if c = newlineChar then findImportsAux .outside cs
      else findImportsAux (.inLit (c :: buf)) cs

/-- All dot-leading quoted literals of a file's content, in order:
`re.findall` of the import pattern. -/
def extractImports (content : String) : List String :=
  findImportsAux .outside content.data

/-- The hardcoded entry-point basenames. -/
def entry_types : List String := ["main.tsx", "vite-env.d.ts", "App.tsx"]

/-- `os.path.basename` of a relative path: its last slash-separated
component. -/
def basename (p : String) : String := (splitSlash p).getLastD ""

/-- The filter applied to a filename during the walk: one of the two
source extensions and not a declaration file. -/
def isSourceName (name : String) : Bool :=
  (strEndsWith name ".ts" || strEndsWith name ".tsx") && !strEndsWith name ".d.ts"

/-- Whether the walk collects this file into the File Set. -/
def collected (sf : SourceFile) : Bool := isSourceName (basename sf.path)

/-- The File Set: relative paths of all collected files, in tree order. -/
def all_files (tree : List SourceFile) : List String :=
  (tree.filter collected).map (fun sf => sf.path)

/-- The hardcoded scan root of the script,
`/Users/sarahsahl/Desktop/relevnt-fresh/src`, as the component list of an
absolute path. -/
def srcDirComps : List String :=
  ["Users", "sarahsahl", "Desktop", "relevnt-fresh", "src"]

/-- One step of `os.path.normpath` on a component of an absolute path:
empty and dot components vanish, a dot-dot pops the last component (and
at the filesystem root is simply dropped), and any other component is
appended. -/
def absNormStep (acc : List String) (comp : String) : List String :=
  if comp = "" || comp = "." then acc
  else if comp = ".." then acc.dropLast
  else acc ++ [comp]

/-- `os.path.normpath(os.path.join(os.path.dirname(os.path.join(src_dir,
fp)), imp))`: the absolute components of the resolved path.  The
normalization is purely textual, so a literal that climbs above the scan
root moves into its literal ancestors and may re-enter the root (for
example `../src/helper` from a top-level file resolves back to
`src/helper`). -/
def resolveImport (fp : String) (imp : String) : List String :=
  (srcDirComps ++ (splitSlash fp).dropLast ++ splitSlash imp).foldl absNormStep []

/-- `resolved_path + ext`, a plain string append: the extension lands on
the last component of the absolute path; when the resolved path is the
filesystem root `/`, the append produces `/` followed by the extension,
a single component. -/
def extCandidate (comps : List String) (ext : String) : List String :=
  match comps with
  | [] => [ext]
  | _ => comps.dropLast ++ [comps.getLastD "" ++ ext]

/-- `os.path.join(resolved_path, name)`: one more component. -/
def idxCandidate (comps : List String) (name : String) : List String :=
  comps ++ [name]

/-- The four resolution candidates the program always builds from a
resolved path: the path with each extension appended directly and the
path joined with each index file. -/
def candidateList (r : List String) : List (List String) :=
  [extCandidate r ".ts", extCandidate r ".tsx",
   idxCandidate r "index.ts", idxCandidate r "index.tsx"]

/-- Length of the longest common prefix of two component lists, as
`os.path.commonprefix` on the split paths. -/
def commonPrefixLen : List String → List String → Nat
  | a :: as, b :: bs => if a = b then commonPrefixLen as bs + 1 else 0
  | _, _ => 0

/-- `os.path.relpath(cand, src_dir)` for an absolute, normalized
candidate: climb out of the root's components past the common prefix,
then descend into the candidate's remainder; an empty relative path is
rendered as a dot. -/
def relPathFromSrc (cand : List String) : String :=
  let i := commonPrefixLen srcDirComps cand
  let rel := List.replicate (srcDirComps.length - i) ".." ++ cand.drop i
  if rel = [] then "." else joinPath rel

/-- The root-relative forms of the four candidates, the strings the
program tests for File Set membership. -/
def candidates (r : List String) : List String :=
  (candidateList r).map relPathFromSrc

/-- The references contributed by one file's content: every candidate of
every extracted literal that is a member of the File Set. -/
def refsOfFile (files : List String) (fp : String) (content : String) : List String :=
  (extractImports content).flatMap fun imp =>
    (candidates (resolveImport fp imp)).filter fun cand => decide (cand ∈ files)

/-- The uncaught exception that ends a run: a `UnicodeDecodeError` raised
while reading a file whose bytes are not valid UTF-8.  Its payload is the
encoding name, the offending bytes, a byte range and a reason — none of
which is derived from the file's path — so the model represents it by a
single bare token. -/
inductive ScanError where
  | decodeError : ScanError
deriving DecidableEq

/-- The content-scanning loop over the collected files: reading a file
whose bytes do not decode raises, aborting the whole run with a decode
error that carries no file path; otherwise the per-file references are
accumulated. -/
def scanAll (files : List String) : List SourceFile → Except ScanError (List String)
  | [] => .ok []
  | sf :: rest =>
      match sf.content with
      | none => .error .decodeError
      | some c =>
          match scanAll files rest with
          | .error e => .error e
          | .ok l => .ok (refsOfFile files sf.path c ++ l)

/-- The Reference Set: the entry-point seeds followed by the references
found by scanning every collected file's content. -/
def referenced_files (tree : List SourceFile) : Except ScanError (List String) :=
  let files := all_files tree
  match scanAll files (tree.filter collected) with
  | .error e => .error e
  | .ok refs =>
      .ok (files.filter (fun f => decide (basename f ∈ entry_types)) ++ refs)

/-- Sort by the lexicographic string order, as Python `sorted`. -/
def sortedStrings (l : List String) : List String :=
  l.insertionSort strLeRel

/-- `find_unused_files`: the File Set minus the Reference Set, sorted;
an undecodable file aborts the run instead. -/
def find_unused_files (tree : List SourceFile) : Except ScanError (List String) :=
  match referenced_files tree with
  | .error e => .error e
  | .ok refs =>
      .ok (sortedStrings ((all_files tree).filter fun f => decide (¬ f ∈ refs)))

/-- The lines the `__main__` block writes to standard output: the header
followed by the unused paths, or nothing at all when the run aborts (the
traceback goes to standard error). -/
def main_output (tree : List SourceFile) : List String :=
  match find_unused_files tree with
  | .error _ => []
  | .ok unused => "Potential unused files:" :: unused

/-! ### Helper lemmas -/

theorem mem_refsOfFile {files : List String} {fp c p : String} :
    p ∈ refsOfFile files fp c ↔
      ∃ imp ∈ extractImports c,
        p ∈ candidates (resolveImport fp imp) ∧ p ∈ files := by
  simp [refsOfFile, List.mem_flatMap, List.mem_filter, decide_eq_true_iff]

theorem scanAll_ok_mem {files : List String} {l : List SourceFile}
    {res : List String} (h : scanAll files l = .ok res) {p : String} :
    p ∈ res ↔ ∃ sf ∈ l, ∃ c, sf.content = some c ∧ p ∈ refsOfFile files sf.path c := by
  induction l generalizing res with
  | nil =>
      simp only [scanAll] at h
      cases h
      simp
  | cons sf rest ih =>
      simp only [scanAll] at h
      cases hc : sf.content with
      | none => simp [hc] at h
      | some c =>
          simp only [hc] at h
          cases hr : scanAll files rest with
          | error q => simp [hr] at h
          | ok l' =>
              simp only [hr] at h
              cases h
              simp only [List.mem_append, List.mem_cons, ih hr]
              constructor
              · rintro (hp | ⟨sf2, h1, h2⟩)
                · exact ⟨sf, Or.inl rfl, c, hc, hp⟩
                · exact ⟨sf2, Or.inr h1, h2⟩
              · rintro ⟨sf2, (rfl | h1), c2, hc2, hp⟩
                · rw [hc] at hc2
                  cases hc2
                  exact Or.inl hp
                · exact Or.inr ⟨sf2, h1, c2, hc2, hp⟩

theorem scanAll_error {files : List String} {l : List SourceFile} {e : ScanError}
    (h : scanAll files l = .error e) :
    ∃ sf ∈ l, sf.content = none := by
  induction l with
  | nil => simp [scanAll] at h
  | cons sf rest ih =>
      simp only [scanAll] at h
      cases hc : sf.content with
      | none => exact ⟨sf, List.mem_cons_self _ _, hc⟩
      | some c =>
          simp only [hc] at h
          cases hr : scanAll files rest with
          | error q =>
              obtain ⟨sf2, h1, h2⟩ := ih hr
              exact ⟨sf2, List.mem_cons_of_mem _ h1, h2⟩
          | ok l' => simp [hr] at h

theorem scanAll_error_of_mem {files : List String} {l : List SourceFile}
    {sf : SourceFile} (hmem : sf ∈ l) (hc : sf.content = none) :
    scanAll files l = .error .decodeError := by
  induction l with
  | nil => cases hmem
  | cons sf0 rest ih =>
      rcases List.mem_cons.mp hmem with rfl | hmem'
      · simp [scanAll, hc]
      · simp only [scanAll]
        cases hc0 : sf0.content with
        | none => rfl
        | some c => simp [ih hmem']

theorem mem_referenced {tree : List SourceFile} {refs : List String}
    (h : referenced_files tree = .ok refs) {p : String} :
    p ∈ refs ↔
      (p ∈ all_files tree ∧ basename p ∈ entry_types) ∨
      ∃ sf ∈ tree, collected sf = true ∧ ∃ c, sf.content = some c ∧
        p ∈ refsOfFile (all_files tree) sf.path c := by
  simp only [referenced_files] at h
  cases hs : scanAll (all_files tree) (tree.filter collected) with
  | error q => simp [hs] at h
  | ok l =>
      simp only [hs] at h
      cases h
      simp only [List.mem_append, List.mem_filter, decide_eq_true_iff,
        scanAll_ok_mem hs]
      constructor
      · rintro (⟨h1, h2⟩ | ⟨sf, ⟨hmem, hcol⟩, h2⟩)
        · exact Or.inl ⟨h1, h2⟩
        · exact Or.inr ⟨sf, hmem, hcol, h2⟩
      · rintro (⟨h1, h2⟩ | ⟨sf, h1, h2, h3⟩)
        · exact Or.inl ⟨h1, h2⟩
        · exact Or.inr ⟨sf, ⟨h1, h2⟩, h3⟩

theorem referenced_subset {tree : List SourceFile} {refs : List String}
    (h : referenced_files tree = .ok refs) {p : String} (hp : p ∈ refs) :
    p ∈ all_files tree := by
  rcases (mem_referenced h).mp hp with ⟨h1, _⟩ | ⟨sf, _, _, c, _, h2⟩
  · exact h1
  · exact (mem_refsOfFile.mp h2).choose_spec.2.2

theorem lexLe_total (x y : List Char) : lexLe x y = true ∨ lexLe y x = true := by
  induction x generalizing y with
  | nil => exact Or.inl rfl
  | cons a as ih =>
      cases y with
      | nil => exact Or.inr rfl
      | cons b bs =>
          simp only [lexLe]
          rcases Nat.lt_trichotomy a.toNat b.toNat with h | h | h
          · left
            rw [if_pos h]
          · rw [if_neg (by omega), if_neg (by omega), if_neg (by omega), if_neg (by omega)]
            exact ih bs
          · right
            rw [if_pos h]

theorem lexLe_trans {x y z : List Char} (h1 : lexLe x y = true)
    (h2 : lexLe y z = true) : lexLe x z = true := by
  induction x generalizing y z with
  | nil => rfl
  | cons a as ih =>
      cases y with
      | nil => simp [lexLe] at h1
      | cons b bs =>
          cases z with
          | nil => simp [lexLe] at h2
          | cons c cs =>
              simp only [lexLe] at h1 h2 ⊢
              rcases Nat.lt_trichotomy a.toNat b.toNat with hab | hab | hab
              · rcases Nat.lt_trichotomy b.toNat c.toNat with hbc | hbc | hbc
                · rw [if_pos (by omega)]
                · rw [if_pos (by omega)]
                · rw [if_neg (by omega), if_pos hbc] at h2
                  simp at h2
              · rcases Nat.lt_trichotomy b.toNat c.toNat with hbc | hbc | hbc
                · rw [if_pos (by omega)]
                · rw [if_neg (by omega), if_neg (by omega)] at h1
                  rw [if_neg (by omega), if_neg (by omega)] at h2
                  rw [if_neg (by omega), if_neg (by omega)]
                  exact ih h1 h2
                · rw [if_neg (by omega), if_pos hbc] at h2
                  simp at h2
              · rw [if_neg (by omega), if_pos hab] at h1
                simp at h1

theorem lexLe_antisymm {x y : List Char} (h1 : lexLe x y = true)
    (h2 : lexLe y x = true) : x = y := by
  induction x generalizing y with
  | nil =>
      cases y with
      | nil => rfl
      | cons b bs => simp [lexLe] at h2
  | cons a as ih =>
      cases y with
      | nil => simp [lexLe] at h1
      | cons b bs =>
          simp only [lexLe] at h1 h2
          rcases Nat.lt_trichotomy a.toNat b.toNat with h | h | h
          · rw [if_neg (by omega), if_pos h] at h2
            simp at h2
          · have ha : a = b := Char.eq_of_val_eq (UInt32.toNat.inj h)
            rw [if_neg (by omega), if_neg (by omega)] at h1
            rw [if_neg (by omega), if_neg (by omega)] at h2
            rw [ha, ih h1 h2]
          · rw [if_neg (by omega), if_pos h] at h1
            simp at h1

instance : IsTotal String strLeRel := ⟨fun a b => lexLe_total a.data b.data⟩

instance : IsTrans String strLeRel := ⟨fun _ _ _ h1 h2 => lexLe_trans h1 h2⟩

instance : IsAntisymm String strLeRel :=
  ⟨fun a b h1 h2 => by
    cases a with
    | mk da =>
        cases b with
        | mk db => exact congrArg String.mk (lexLe_antisymm h1 h2)⟩

theorem sortedStrings_sorted (l : List String) :
    List.Sorted strLeRel (sortedStrings l) :=
  List.sorted_insertionSort strLeRel l

theorem sortedStrings_perm (l : List String) : (sortedStrings l).Perm l :=
  List.perm_insertionSort strLeRel l

theorem mem_sortedStrings {l : List String} {p : String} :
    p ∈ sortedStrings l ↔ p ∈ l :=
  List.mem_insertionSort strLeRel

theorem find_unused_ok {tree : List SourceFile} {refs : List String}
    (h : referenced_files tree = .ok refs) :
    find_unused_files tree =
      .ok (sortedStrings ((all_files tree).filter fun f => decide (¬ f ∈ refs))) := by
  simp [find_unused_files, h]

theorem find_unused_ok_inv {tree : List SourceFile} {unused : List String}
    (h : find_unused_files tree = .ok unused) :
    ∃ refs, referenced_files tree = .ok refs ∧
      unused = sortedStrings ((all_files tree).filter fun f => decide (¬ f ∈ refs)) := by
  simp only [find_unused_files] at h
  cases hr : referenced_files tree with
  | error p => simp [hr] at h
  | ok refs =>
      simp only [hr] at h
      cases h
      exact ⟨refs, rfl, rfl⟩

theorem referenced_files_error {tree : List SourceFile} {e : ScanError}
    (h : scanAll (all_files tree) (tree.filter collected) = .error e) :
    referenced_files tree = .error e := by
  simp [referenced_files, h]

theorem find_unused_error {tree : List SourceFile} {e : ScanError}
    (h : referenced_files tree = .error e) :
    find_unused_files tree = .error e := by
  simp [find_unused_files, h]

theorem scanAll_ok_no_none {files : List String} {l : List SourceFile}
    {res : List String} (h : scanAll files l = .ok res) :
    ∀ sf ∈ l, sf.content ≠ none := by
  intro sf hm hc
  have hp := @scanAll_error_of_mem files l sf hm hc
  rw [h] at hp
  cases hp

theorem scanAll_ok_of_all_some {files : List String} {l : List SourceFile}
    (h : ∀ sf ∈ l, sf.content ≠ none) : ∃ res, scanAll files l = .ok res := by
  induction l with
  | nil => exact ⟨[], rfl⟩
  | cons sf rest ih =>
      obtain ⟨res, hres⟩ := ih fun sf2 hm => h sf2 (List.mem_cons_of_mem _ hm)
      cases hc : sf.content with
      | none => exact absurd hc (h sf (List.mem_cons_self _ _))
      | some c =>
          refine ⟨refsOfFile files sf.path c ++ res, ?_⟩
          simp [scanAll, hc, hres]

theorem refsOfFile_congr {files₁ files₂ : List String}
    (h : ∀ p : String, p ∈ files₁ ↔ p ∈ files₂) (fp c : String) :
    refsOfFile files₁ fp c = refsOfFile files₂ fp c := by
  simp only [refsOfFile]
  congr 1
  funext imp
  exact List.filter_congr fun x _ => by
    rw [decide_eq_decide]
    exact h x

theorem all_files_nodup {tree : List SourceFile}
    (h : (tree.map fun sf => sf.path).Nodup) : (all_files tree).Nodup := by
  have hsub : ((tree.filter collected).map fun sf => sf.path).Sublist
      (tree.map fun sf => sf.path) :=
    (List.filter_sublist tree).map fun sf => sf.path
  exact h.sublist hsub

theorem findImportsAux_dot (cs : List Char) :
    ∀ st, (∀ buf, st = ScanState.inLit buf → ∃ l, buf = l ++ ['.']) →
      ∀ s ∈ findImportsAux st cs, ∃ t : List Char, s = String.mk ('.' :: t) := by
  induction cs with
  | nil =>
      intro st hst s hs
      cases st <;> simp [findImportsAux] at hs
  | cons c cs ih =>
      intro st hst s hs
      cases st with
      | outside =>
          simp only [findImportsAux] at hs
          split at hs
          · exact ih _ (fun buf h => by cases h) s hs
          · exact ih _ (fun buf h => by cases h) s hs
      | seenQuote =>
          simp only [findImportsAux] at hs
          split at hs
          · refine ih _ (fun buf h => ?_) s hs
            cases h
            exact ⟨[], rfl⟩
          · split at hs
            · exact ih _ (fun buf h => by cases h) s hs
            · exact ih _ (fun buf h => by cases h) s hs
      | inLit buf =>
          obtain ⟨l, rfl⟩ := hst buf rfl
          simp only [findImportsAux] at hs
          split at hs
          · rcases List.mem_cons.mp hs with rfl | hs'
            · exact ⟨l.reverse, by simp⟩
            · exact ih _ (fun b h => by cases h) s hs'
          · split at hs
            · exact ih _ (fun b h => by cases h) s hs
            · refine ih _ (fun b h => ?_) s hs
              cases h
              exact ⟨c :: l, rfl⟩

theorem extractImports_dot {content imp : String}
    (h : imp ∈ extractImports content) : ∃ rest, imp = "." ++ rest := by
  obtain ⟨t, rfl⟩ :=
    findImportsAux_dot content.data .outside (fun buf h => by cases h) imp h
  exact ⟨String.mk t, rfl⟩

/-! ### Claims -/

/-- C1 (counterexample): in the tree `main.tsx` (empty), `orphan.ts`
(imports `./helper`), `helper.ts` (empty), the final Reference Set is
`{main.tsx, helper.ts}`: `helper.ts` is in the Reference Set although it
has no entry-point basename and no Reference-Set member's content yields
it — its only importer `orphan.ts` lies outside the Reference Set.  So a
file imported only by files outside the Reference Set can be in the
Reference Set. -/
theorem unreachable_import_counterexample :
    referenced_files
        [⟨"main.tsx", some ""⟩,
         ⟨"orphan.ts", some "import h from \"./helper\""⟩,
         ⟨"helper.ts", some ""⟩] = .ok ["main.tsx", "helper.ts"] ∧
    basename "helper.ts" ∉ entry_types ∧
    "helper.ts" ∉ refsOfFile ["main.tsx", "orphan.ts", "helper.ts"] "main.tsx" "" ∧
    "helper.ts" ∉ refsOfFile ["main.tsx", "orphan.ts", "helper.ts"] "helper.ts" "" ∧
    "orphan.ts" ∉ ["main.tsx", "helper.ts"] ∧
    "helper.ts" ∈ refsOfFile ["main.tsx", "orphan.ts", "helper.ts"] "orphan.ts"
      "import h from \"./helper\"" :=
  ⟨rfl, by decide, by decide, by decide, by decide, by decide⟩

/-- C1 (amended): every file in the final Reference Set either has a
recognized entry-point basename, or some file of the scanned tree — not
necessarily itself in the Reference Set — contains an import literal
resolving to it; the scan is a single pass marking files imported by any
file, reachable or not. -/
theorem referenced_has_entry_or_importer {tree : List SourceFile}
    {refs : List String} (h : referenced_files tree = .ok refs) {p : String}
    (hp : p ∈ refs) :
    (p ∈ all_files tree ∧ basename p ∈ entry_types) ∨
    ∃ sf ∈ tree, collected sf = true ∧ ∃ c, sf.content = some c ∧
      ∃ imp ∈ extractImports c,
        p ∈ candidates (resolveImport sf.path imp) ∧ p ∈ all_files tree := by
  rcases (mem_referenced h).mp hp with h1 | ⟨sf, h1, h2, c, h3, h4⟩
  · exact Or.inl h1
  · obtain ⟨imp, hi, hc, hf⟩ := mem_refsOfFile.mp h4
    exact Or.inr ⟨sf, h1, h2, c, h3, imp, hi, hc, hf⟩

/-- Witness for the amended C1 at a one-file tree. -/
theorem referenced_has_entry_or_importer_witness :
    ("main.tsx" ∈ all_files [⟨"main.tsx", some ""⟩] ∧
      basename "main.tsx" ∈ entry_types) ∨
    ∃ sf ∈ [(⟨"main.tsx", some ""⟩ : SourceFile)], collected sf = true ∧
      ∃ c, sf.content = some c ∧ ∃ imp ∈ extractImports c,
        "main.tsx" ∈ candidates (resolveImport sf.path imp) ∧
        "main.tsx" ∈ all_files [⟨"main.tsx", some ""⟩] :=
  @referenced_has_entry_or_importer [⟨"main.tsx", some ""⟩]
    ["main.tsx"] rfl "main.tsx" (by decide)

/-- C2: every File Set member whose basename is a recognized entry-point
basename is in the Reference Set and absent from the returned Unused Set,
whether or not any file imports it. -/
theorem entry_points_always_referenced {tree : List SourceFile} {p : String}
    (hp : p ∈ all_files tree) (hent : basename p ∈ entry_types) :
    (∀ refs, referenced_files tree = .ok refs → p ∈ refs) ∧
    (∀ unused, find_unused_files tree = .ok unused → p ∉ unused) := by
  constructor
  · intro refs h
    exact (mem_referenced h).mpr (Or.inl ⟨hp, hent⟩)
  · intro unused h hpu
    obtain ⟨refs, hr, rfl⟩ := find_unused_ok_inv h
    rcases List.mem_filter.mp (mem_sortedStrings.mp hpu) with ⟨_, hdec⟩
    rw [decide_eq_true_iff] at hdec
    exact hdec ((mem_referenced hr).mpr (Or.inl ⟨hp, hent⟩))

/-- Witness for C2: an `App.tsx` nobody imports is referenced and not
reported unused. -/
theorem entry_points_always_referenced_witness :
    ("App.tsx" ∈ ["App.tsx"]) ∧ ("App.tsx" ∉ ["a.ts"]) :=
  ⟨(@entry_points_always_referenced [⟨"App.tsx", some ""⟩, ⟨"a.ts", some ""⟩]
      "App.tsx" (by decide) (by decide)).1 _ rfl,
   (@entry_points_always_referenced [⟨"App.tsx", some ""⟩, ⟨"a.ts", some ""⟩]
      "App.tsx" (by decide) (by decide)).2 _ rfl⟩

/-- C3: a file `a/b.ts` whose content holds the literal `./c` marks
`a/c.ts` referenced when that file is in the File Set, and likewise marks
`a/c/index.tsx` referenced when that file is in the File Set. -/
theorem round_trip_resolution {tree : List SourceFile} {content : String}
    (hmem : SourceFile.mk "a/b.ts" (some content) ∈ tree)
    (himp : "./c" ∈ extractImports content)
    {refs : List String} (href : referenced_files tree = .ok refs) :
    ("a/c.ts" ∈ all_files tree → "a/c.ts" ∈ refs) ∧
    ("a/c/index.tsx" ∈ all_files tree → "a/c/index.tsx" ∈ refs) := by
  have hcol : collected (SourceFile.mk "a/b.ts" (some content)) = true := rfl
  constructor
  · intro hc
    exact (mem_referenced href).mpr (Or.inr ⟨_, hmem, hcol, content, rfl,
      mem_refsOfFile.mpr ⟨"./c", himp,
        (by decide : "a/c.ts" ∈ candidates (resolveImport "a/b.ts" "./c")), hc⟩⟩)
  · intro hc
    exact (mem_referenced href).mpr (Or.inr ⟨_, hmem, hcol, content, rfl,
      mem_refsOfFile.mpr ⟨"./c", himp,
        (by decide : "a/c/index.tsx" ∈ candidates (resolveImport "a/b.ts" "./c")),
        hc⟩⟩)

/-- Witness for C3 at a tree holding `a/b.ts`, `a/c.ts` and
`a/c/index.tsx`. -/
theorem round_trip_resolution_witness :
    "a/c.ts" ∈ ["a/c.ts", "a/c/index.tsx"] ∧
    "a/c/index.tsx" ∈ ["a/c.ts", "a/c/index.tsx"] := by
  have h := @round_trip_resolution
    [⟨"a/b.ts", some "import c from \"./c\""⟩,
     ⟨"a/c.ts", some ""⟩, ⟨"a/c/index.tsx", some ""⟩]
    "import c from \"./c\"" (by decide) (by decide)
    ["a/c.ts", "a/c/index.tsx"] rfl
  exact ⟨h.1 (by decide), h.2 (by decide)⟩

theorem extCandidate_ne_nil {l : List String} (e : String) :
    extCandidate l e ≠ [] := by
  cases l with
  | nil => simp [extCandidate]
  | cons a as => simp [extCandidate]

theorem joinPath_ext {l : List String} (hl : l ≠ []) (e : String) :
    joinPath (extCandidate l e) = joinPath l ++ e := by
  induction l with
  | nil => exact absurd rfl hl
  | cons a as ih =>
      cases as with
      | nil => rfl
      | cons b bs =>
          have hstep : extCandidate (a :: b :: bs) e =
              a :: extCandidate (b :: bs) e := by
            simp [extCandidate]
          rw [hstep]
          cases hE : extCandidate (b :: bs) e with
          | nil => exact absurd hE (extCandidate_ne_nil e)
          | cons z zs =>
              have := ih (by simp)
              rw [hE] at this
              show a ++ "/" ++ joinPath (z :: zs) = joinPath (a :: b :: bs) ++ e
              rw [this]
              simp [joinPath, String.append_assoc]

theorem joinPath_idx {l : List String} (hl : l ≠ []) (n : String) :
    joinPath (idxCandidate l n) = joinPath l ++ "/" ++ n := by
  induction l with
  | nil => exact absurd rfl hl
  | cons a as ih =>
      cases as with
      | nil => rfl
      | cons b bs =>
          have hstep : idxCandidate (a :: b :: bs) n =
              a :: idxCandidate (b :: bs) n := by
            simp [idxCandidate]
          rw [hstep]
          cases hE : idxCandidate (b :: bs) n with
          | nil => simp [idxCandidate] at hE
          | cons z zs =>
              have := ih (by simp)
              rw [hE] at this
              show a ++ "/" ++ joinPath (z :: zs) = joinPath (a :: b :: bs) ++ "/" ++ n
              rw [this]
              simp [joinPath, String.append_assoc]

/-- C4: resolution always builds exactly four candidates — the resolved
path with each of the two extensions appended directly (the append lands
on the path's last component) and the resolved path treated as a
directory holding an index file in each extension — and a candidate is
added to the Reference Set exactly when some extracted literal produces
it and its root-relative form is a member of the File Set. -/
theorem four_resolution_candidates :
    (∀ fp imp : String, (candidates (resolveImport fp imp)).length = 4) ∧
    (∀ r : List String, r ≠ [] →
      joinPath (extCandidate r ".ts") = joinPath r ++ ".ts" ∧
      joinPath (extCandidate r ".tsx") = joinPath r ++ ".tsx" ∧
      joinPath (idxCandidate r "index.ts") = joinPath r ++ "/" ++ "index.ts" ∧
      joinPath (idxCandidate r "index.tsx") = joinPath r ++ "/" ++ "index.tsx") ∧
    (∀ (files : List String) (fp c p : String),
      p ∈ refsOfFile files fp c ↔
        ∃ imp ∈ extractImports c,
          p ∈ candidates (resolveImport fp imp) ∧ p ∈ files) := by
  refine ⟨fun fp imp => rfl, fun r hr =>
    ⟨joinPath_ext hr _, joinPath_ext hr _, joinPath_idx hr _, joinPath_idx hr _⟩,
    fun files fp c p => mem_refsOfFile⟩

/-- Witness for C4 at the literal `./c` seen from `a/b.ts`, with the
re-entrant literal `../src/helper` resolving back into the root exactly
as the program's textual normpath does. -/
theorem four_resolution_candidates_witness :
    (candidates (resolveImport "a/b.ts" "./c")).length = 4 ∧
    joinPath (extCandidate (resolveImport "a/b.ts" "./c") ".ts") =
      joinPath (resolveImport "a/b.ts" "./c") ++ ".ts" ∧
    candidates (resolveImport "a/b.ts" "./c") =
      ["a/c.ts", "a/c.tsx", "a/c/index.ts", "a/c/index.tsx"] ∧
    candidates (resolveImport "a.ts" "../src/helper") =
      ["helper.ts", "helper.tsx", "helper/index.ts", "helper/index.tsx"] ∧
    "a/c.ts" ∈ refsOfFile ["a/c.ts"] "a/b.ts" "import c from \"./c\"" :=
  ⟨four_resolution_candidates.1 "a/b.ts" "./c",
   (four_resolution_candidates.2.1 (resolveImport "a/b.ts" "./c") (by decide)).1,
   by decide, by decide,
   (four_resolution_candidates.2.2 ["a/c.ts"] "a/b.ts" "import c from \"./c\""
      "a/c.ts").mpr ⟨"./c", by decide, by decide, by decide⟩⟩

/-- C5: every literal the scanner extracts begins with a dot, and every
addition to the Reference Set stems from such a literal, so a bare
package-style literal never adds anything. -/
theorem bare_literals_never_referenced :
    (∀ content imp : String, imp ∈ extractImports content →
      ∃ rest, imp = "." ++ rest) ∧
    (∀ (files : List String) (fp c p : String), p ∈ refsOfFile files fp c →
      ∃ imp, imp ∈ extractImports c ∧ (∃ rest, imp = "." ++ rest) ∧
        p ∈ candidates (resolveImport fp imp) ∧ p ∈ files) := by
  refine ⟨fun content imp h => extractImports_dot h, fun files fp c p hp => ?_⟩
  obtain ⟨imp, h1, h2, h3⟩ := mem_refsOfFile.mp hp
  exact ⟨imp, h1, extractImports_dot h1, h2, h3⟩

/-- Witness for C5: the one literal of a small content begins with a
dot, and a bare literal is not extracted at all. -/
theorem bare_literals_never_referenced_witness :
    (∃ rest, ("./y" : String) = "." ++ rest) ∧
    extractImports "import p from \"some-package\"" = [] :=
  ⟨bare_literals_never_referenced.1 "import y from \"./y\"" "./y" (by decide),
   by decide⟩

/-- C6: a file whose basename ends in `.d.ts` is never in the File Set,
hence never in the Reference Set nor in the returned Unused Set. -/
theorem declaration_files_never_collected {tree : List SourceFile} {p : String} :
    (p ∈ all_files tree → strEndsWith (basename p) ".d.ts" = false) ∧
    (∀ refs, referenced_files tree = .ok refs → p ∈ refs →
      strEndsWith (basename p) ".d.ts" = false) ∧
    (∀ unused, find_unused_files tree = .ok unused → p ∈ unused →
      strEndsWith (basename p) ".d.ts" = false) := by
  have key : p ∈ all_files tree → strEndsWith (basename p) ".d.ts" = false := by
    intro hp
    simp only [all_files, List.mem_map, List.mem_filter] at hp
    obtain ⟨sf, ⟨_, hcol⟩, rfl⟩ := hp
    simp only [collected, isSourceName, Bool.and_eq_true, Bool.not_eq_true'] at hcol
    exact hcol.2
  refine ⟨key, fun refs h hp => key (referenced_subset h hp), fun unused h hp => ?_⟩
  obtain ⟨refs, hr, rfl⟩ := find_unused_ok_inv h
  exact key (List.mem_filter.mp (mem_sortedStrings.mp hp)).1

/-- Witness for C6: a declaration file in the tree is not collected, and
the collected file of the same tree has no declaration suffix. -/
theorem declaration_files_never_collected_witness :
    all_files [⟨"vite-env.d.ts", some ""⟩, ⟨"x.ts", some ""⟩] = ["x.ts"] ∧
    strEndsWith (basename "x.ts") ".d.ts" = false :=
  ⟨by decide,
   (@declaration_files_never_collected
      [⟨"vite-env.d.ts", some ""⟩, ⟨"x.ts", some ""⟩] "x.ts").1 (by decide)⟩

/-- C7: on a successful run the result is exactly File Set minus
Reference Set, lexicographically sorted and duplicate-free, and the
program prints the fixed header line followed by those paths in order. -/
theorem unused_sorted_output {tree : List SourceFile}
    (hnd : (tree.map fun sf => sf.path).Nodup) {refs unused : List String}
    (h1 : referenced_files tree = .ok refs)
    (h2 : find_unused_files tree = .ok unused) :
    List.Sorted strLeRel unused ∧ unused.Nodup ∧
    (∀ p, p ∈ unused ↔ p ∈ all_files tree ∧ p ∉ refs) ∧
    main_output tree = "Potential unused files:" :: unused := by
  obtain ⟨refs2, hr2, hun⟩ := find_unused_ok_inv h2
  rw [h1] at hr2
  injection hr2 with he
  subst he
  subst hun
  refine ⟨sortedStrings_sorted _, ?_, ?_, ?_⟩
  · exact ((sortedStrings_perm _).nodup_iff).mpr ((all_files_nodup hnd).filter _)
  · intro p
    rw [mem_sortedStrings, List.mem_filter]
    simp
  · simp [main_output, h2]

/-- Witness for C7 at a three-file tree with two unused files. -/
theorem unused_sorted_output_witness :
    List.Sorted strLeRel ["a.ts", "b.ts"] ∧ (["a.ts", "b.ts"] : List String).Nodup ∧
    ("a.ts" ∈ ["a.ts", "b.ts"] ↔
      "a.ts" ∈ all_files [⟨"main.tsx", some ""⟩, ⟨"b.ts", some ""⟩, ⟨"a.ts", some ""⟩] ∧
      "a.ts" ∉ ["main.tsx"]) ∧
    main_output [⟨"main.tsx", some ""⟩, ⟨"b.ts", some ""⟩, ⟨"a.ts", some ""⟩] =
      "Potential unused files:" :: ["a.ts", "b.ts"] := by
  have h := @unused_sorted_output
    [⟨"main.tsx", some ""⟩, ⟨"b.ts", some ""⟩, ⟨"a.ts", some ""⟩]
    (by decide) ["main.tsx"] ["a.ts", "b.ts"] rfl rfl
  exact ⟨h.1, h.2.1, h.2.2.1 "a.ts", h.2.2.2⟩

/-- C8 (counterexample): two trees that differ only in which of their
two files is the undecodable one abort with identical errors — the
uncaught `UnicodeDecodeError` carries the encoding, byte range and
reason but nothing derived from the file's path — so the abort does not
identify the offending path. -/
theorem decode_abort_identifies_no_path :
    find_unused_files [⟨"a.ts", none⟩, ⟨"b.ts", some ""⟩] =
      find_unused_files [⟨"a.ts", some ""⟩, ⟨"b.ts", none⟩] ∧
    find_unused_files [⟨"a.ts", none⟩, ⟨"b.ts", some ""⟩] =
      .error ScanError.decodeError ∧
    main_output [⟨"a.ts", none⟩, ⟨"b.ts", some ""⟩] = [] ∧
    main_output [⟨"a.ts", some ""⟩, ⟨"b.ts", none⟩] = [] :=
  ⟨rfl, rfl, rfl, rfl⟩

/-- C8 (amended): when a collected file's content cannot be decoded, the
whole run aborts with the uncaught decode error and nothing is printed,
not even the header line — no partial-result recovery — but the error
does not identify the offending path. -/
theorem unreadable_file_aborts {tree : List SourceFile} {sf : SourceFile}
    (hmem : sf ∈ tree) (hcol : collected sf = true) (hc : sf.content = none) :
    find_unused_files tree = .error ScanError.decodeError ∧
    main_output tree = [] := by
  have hp := @scanAll_error_of_mem (all_files tree) (tree.filter collected)
      sf (List.mem_filter.mpr ⟨hmem, hcol⟩) hc
  have hf := find_unused_error (referenced_files_error hp)
  exact ⟨hf, by simp [main_output, hf]⟩

/-- Witness for the amended C8 at a tree with one undecodable file. -/
theorem unreadable_file_aborts_witness :
    find_unused_files [⟨"good.ts", some ""⟩, ⟨"bad.ts", none⟩] =
      .error ScanError.decodeError ∧
    main_output [⟨"good.ts", some ""⟩, ⟨"bad.ts", none⟩] = [] :=
  @unreadable_file_aborts [⟨"good.ts", some ""⟩, ⟨"bad.ts", none⟩]
    ⟨"bad.ts", none⟩ (by decide) (by decide) rfl

/-- C9: the run is a pure function of the set of files: permuting the
enumeration order of the tree changes neither the printed output nor the
returned list. -/
theorem scan_order_invariant {t₁ t₂ : List SourceFile} (hperm : t₁.Perm t₂) :
    main_output t₁ = main_output t₂ ∧
    ∀ l, find_unused_files t₁ = .ok l ↔ find_unused_files t₂ = .ok l := by
  have hcolp : (t₁.filter collected).Perm (t₂.filter collected) := hperm.filter _
  have hfp : (all_files t₁).Perm (all_files t₂) := hcolp.map _
  have hfm : ∀ p : String, p ∈ all_files t₁ ↔ p ∈ all_files t₂ :=
    fun p => hfp.mem_iff
  cases hs1 : scanAll (all_files t₁) (t₁.filter collected) with
  | error e =>
      obtain ⟨sf, hm, hc⟩ := scanAll_error hs1
      have hq := @scanAll_error_of_mem (all_files t₂) (t₂.filter collected)
        sf (hcolp.mem_iff.mp hm) hc
      have e1 := find_unused_error (referenced_files_error hs1)
      have e2 := find_unused_error (referenced_files_error hq)
      refine ⟨by simp [main_output, e1, e2], fun l => ?_⟩
      constructor <;> intro h
      · rw [e1] at h
        cases h
      · rw [e2] at h
        cases h
  | ok res₁ =>
      have hnone : ∀ sf ∈ t₂.filter collected, sf.content ≠ none :=
        fun sf hm => scanAll_ok_no_none hs1 sf (hcolp.mem_iff.mpr hm)
      obtain ⟨res₂, hs2⟩ :=
        @scanAll_ok_of_all_some (all_files t₂) (t₂.filter collected) hnone
      have hr1 : referenced_files t₁ =
          .ok ((all_files t₁).filter (fun f => decide (basename f ∈ entry_types))
            ++ res₁) := by
        simp [referenced_files, hs1]
      have hr2 : referenced_files t₂ =
          .ok ((all_files t₂).filter (fun f => decide (basename f ∈ entry_types))
            ++ res₂) := by
        simp [referenced_files, hs2]
      have hrm : ∀ p : String,
          p ∈ (all_files t₁).filter (fun f => decide (basename f ∈ entry_types))
              ++ res₁ ↔
          p ∈ (all_files t₂).filter (fun f => decide (basename f ∈ entry_types))
              ++ res₂ := by
        intro p
        rw [mem_referenced hr1, mem_referenced hr2]
        constructor
        · rintro (⟨ha, hb⟩ | ⟨sf, ha, hb, c, hcn, hd⟩)
          · exact Or.inl ⟨(hfm p).mp ha, hb⟩
          · rw [refsOfFile_congr hfm sf.path c] at hd
            exact Or.inr ⟨sf, hperm.mem_iff.mp ha, hb, c, hcn, hd⟩
        · rintro (⟨ha, hb⟩ | ⟨sf, ha, hb, c, hcn, hd⟩)
          · exact Or.inl ⟨(hfm p).mpr ha, hb⟩
          · rw [← refsOfFile_congr hfm sf.path c] at hd
            exact Or.inr ⟨sf, hperm.mem_iff.mpr ha, hb, c, hcn, hd⟩
      have u1 := find_unused_ok hr1
      have u2 := find_unused_ok hr2
      have hueq :
          sortedStrings ((all_files t₁).filter fun f => decide
            (¬ f ∈ (all_files t₁).filter (fun f => decide (basename f ∈ entry_types))
              ++ res₁)) =
          sortedStrings ((all_files t₂).filter fun f => decide
            (¬ f ∈ (all_files t₂).filter (fun f => decide (basename f ∈ entry_types))
              ++ res₂)) := by
        refine List.eq_of_perm_of_sorted ?_ (sortedStrings_sorted _)
          (sortedStrings_sorted _)
        refine ((sortedStrings_perm _).trans ?_).trans (sortedStrings_perm _).symm
        have heq : ((all_files t₁).filter fun f => decide
              (¬ f ∈ (all_files t₁).filter
                (fun f => decide (basename f ∈ entry_types)) ++ res₁)) =
            ((all_files t₁).filter fun f => decide
              (¬ f ∈ (all_files t₂).filter
                (fun f => decide (basename f ∈ entry_types)) ++ res₂)) :=
          List.filter_congr fun x _ => by
            rw [decide_eq_decide]
            exact not_congr (hrm x)
        rw [heq]
        exact hfp.filter _
      refine ⟨by simp only [main_output, u1, u2, hueq], fun l => ?_⟩
      rw [u1, u2, hueq]

/-- Witness for C9: swapping a two-file tree changes nothing. -/
theorem scan_order_invariant_witness :
    main_output [⟨"a.ts", some ""⟩, ⟨"main.tsx", some ""⟩] =
      main_output [⟨"main.tsx", some ""⟩, ⟨"a.ts", some ""⟩] ∧
    (find_unused_files [⟨"a.ts", some ""⟩, ⟨"main.tsx", some ""⟩] = .ok ["a.ts"] ↔
      find_unused_files [⟨"main.tsx", some ""⟩, ⟨"a.ts", some ""⟩] = .ok ["a.ts"]) :=
  ⟨(scan_order_invariant (by decide)).1, (scan_order_invariant (by decide)).2 ["a.ts"]⟩

/-- C10: the Reference Set only ever holds members of the File Set —
seeding filters the File Set and resolution checks membership — so the
final difference is exactly the File Set members outside the Reference
Set. -/
theorem reference_set_subset_file_set {tree : List SourceFile} :
    (∀ refs, referenced_files tree = .ok refs → ∀ p ∈ refs, p ∈ all_files tree) ∧
    (∀ refs unused, referenced_files tree = .ok refs →
      find_unused_files tree = .ok unused →
      ∀ p, p ∈ unused ↔ p ∈ all_files tree ∧ p ∉ refs) := by
  constructor
  · intro refs h p hp
    exact referenced_subset h hp
  · intro refs unused h1 h2 p
    obtain ⟨refs2, hr2, hun⟩ := find_unused_ok_inv h2
    rw [h1] at hr2
    injection hr2 with he
    subst he
    subst hun
    rw [mem_sortedStrings, List.mem_filter]
    simp

/-- Witness for C10 at a two-file tree. -/
theorem reference_set_subset_file_set_witness :
    "main.tsx" ∈ all_files [⟨"main.tsx", some ""⟩, ⟨"a.ts", some ""⟩] ∧
    ("a.ts" ∈ ["a.ts"] ↔
      "a.ts" ∈ all_files [⟨"main.tsx", some ""⟩, ⟨"a.ts", some ""⟩] ∧
      "a.ts" ∉ ["main.tsx"]) :=
  ⟨(@reference_set_subset_file_set [⟨"main.tsx", some ""⟩, ⟨"a.ts", some ""⟩]).1
      ["main.tsx"] rfl "main.tsx" (by decide),
   (@reference_set_subset_file_set [⟨"main.tsx", some ""⟩, ⟨"a.ts", some ""⟩]).2
      ["main.tsx"] ["a.ts"] rfl rfl "a.ts"⟩

end FindUnused
